import Mathlib

/-!
# Verification of the TaskScheduler heuristic solver core

This file embeds the heuristic window-allocation engine of the
TaskScheduler repository in Lean 4 and proves the specified properties.

The embedded code comes from two places:

* `src/factryengine/scheduler/heuristic_solver/main.py` — the
  `HeuristicSolver` class (`solve`, `_get_task_earliest_start`,
  `_update_error_message`).  This file is present in the repository and
  is embedded faithfully below (Python dicts become association lists
  that preserve insertion order; `None` becomes `Option.none`;
  exceptions become `Except`/`Option`).
* The `WindowManager` / calendar layer and the `TaskAllocator` are
  collaborators whose bodies are not part of the visible source; they
  are modelled from the specification (each such definition carries a
  doc comment starting `Modelled from the spec:`).  The allocator is
  kept fully abstract: the solver is parameterised over an arbitrary
  allocation function.
* `Scheduler.py` — the dataclass entity model (`Resource`,
  `ResourceGroup`, `Task`) with its id-based `__eq__` / `__hash__`.

All time values are natural numbers on a shared discrete timeline, as
stated by the spec ("all time values are non-negative integers").
-/

/-! ## Calendar model (WindowManager layer)

A calendar is a list of half-open windows `[start, end)`, kept sorted by
start time with strict gaps (adjacent or overlapping windows never
persist) and with `start < end` for every window. -/

/-- A single availability window `[start, end)`, tagged by position in a
calendar list. -/
abbrev Window := Nat × Nat

/-- A resource's calendar: a list of windows. -/
abbrev Calendar := List Window

/-- Association-list lookup, first occurrence wins (Python dict lookup). -/
def alookup {α β : Type} [DecidableEq α] (k : α) : List (α × β) → Option β
  | [] => none
  | p :: rest => if p.1 = k then some p.2 else alookup k rest

/-- `inW t w` : the time point `t` lies inside the half-open window `w`. -/
def inW (t : Nat) (w : Window) : Bool :=
  w.1 ≤ t && t < w.2

/-- `covers cal t` : some window of the calendar contains the time point
`t`; the union of the windows, as a decidable point predicate. -/
def covers (cal : Calendar) (t : Nat) : Bool :=
  cal.any (inW t)

/-- Well-formedness of a calendar: every window is proper
(`start < end`) and consecutive windows are separated by a strict gap
(`end < next start`), hence the list is sorted by start time and the
windows are mutually non-overlapping and non-adjacent. -/
def calendarWF : Calendar → Bool
  | [] => true
  | [w] => decide (w.1 < w.2)
  | w :: w' :: rest =>
    decide (w.1 < w.2) && decide (w.2 < w'.1) && calendarWF (w' :: rest)

/-- Modelled from the spec: removing the span `[s, e)` from a single
window yields up to two remaining windows — the part before `s` and the
part after `e` ("splitting a window into up to two remaining windows
(before and after the consumed span) or removing it entirely if fully
consumed"). -/
def subtractW (s e : Nat) (w : Window) : List Window :=
  (if w.1 < min s w.2 then [(w.1, min s w.2)] else []) ++
  (if max e w.1 < w.2 then [(max e w.1, w.2)] else [])

/-- Removing the span `[s, e)` from every window of a calendar. -/
def subAll (s e : Nat) : Calendar → Calendar
  | [] => []
  | w :: rest => subtractW s e w ++ subAll s e rest

/-- Modelled from the spec: the containment check of the commit
operation — the supplied sub-interval must be "fully contained within a
single existing window of that resource". -/
def containedIn (s e : Nat) (cal : Calendar) : Bool :=
  cal.any (fun w => w.1 ≤ s && e ≤ w.2)

/-- Modelled from the spec: committing one sub-interval `[s, e)` to a
calendar removes that exact span from the availability.  The operation
fails (`none`, the fatal `InvariantViolation` of §7, source of the
missing `WindowManager` body) when the sub-interval is not a proper
interval fully contained within a single existing window. -/
def commitOne (cal : Calendar) (s e : Nat) : Option Calendar :=
  if s < e && containedIn s e cal then some (subAll s e cal) else none

/-- Committing a list of sub-intervals in order. -/
def commitSeq (cal : Calendar) : List (Nat × Nat) → Option Calendar
  | [] => some cal
  | (s, e) :: rest =>
    match commitOne cal s e with
    | none => none
    | some cal' => commitSeq cal' rest

/-- Modelled from the spec: the portion of a calendar at or after
`floor_time` — "a window straddling `floor_time` is clipped so its start
becomes `floor_time`"; windows entirely before the floor are dropped. -/
def clipFrom (floor : Nat) (cal : Calendar) : Calendar :=
  cal.filterMap (fun w => if w.2 ≤ floor then none else some (max w.1 floor, w.2))

/-- Modelled from the spec: `WindowManager.get_task_resource_windows_dict`
— for each requested resource id, the portion of its availability at or
after the floor time; "resources with no availability at or after
`floor_time` are omitted entirely from the result". -/
def get_task_resource_windows_dict (wm : List (Nat × Calendar))
    (rids : List Nat) (floor : Nat) : List (Nat × Calendar) :=
  rids.filterMap (fun rid =>
    match alookup rid wm with
    | none => none
    | some cal =>
      let ws := clipFrom floor cal
      if ws.isEmpty then none else some (rid, ws))

/-- Modelled from the spec: committing one allocated sub-interval to the
calendar of resource `rid` inside the window manager.  Fails when the
resource is unknown or the calendar-level commit fails. -/
def commitAt (rid s e : Nat) : List (Nat × Calendar) → Option (List (Nat × Calendar))
  | [] => none
  | (r, c) :: rest =>
    if r = rid then
      (commitOne c s e).map (fun c' => (r, c') :: rest)
    else
      (commitAt rid s e rest).map (fun wm' => (r, c) :: wm')

/-- Modelled from the spec: `WindowManager.update_resource_windows` —
"for every sub-interval supplied, removes that exact span from the
resource's availability". -/
def update_resource_windows (wm : List (Nat × Calendar)) :
    List (Nat × (Nat × Nat)) → Option (List (Nat × Calendar))
  | [] => some wm
  | (rid, (s, e)) :: rest =>
    match commitAt rid s e wm with
    | none => none
    | some wm' => update_resource_windows wm' rest

/-! ## The solver state and task model (from `main.py`) -/

/-- Modelled from the spec: the task entity as consumed by
`HeuristicSolver` (the `factryengine` models package is not part of the
visible source).  Only the fields the solver reads are modelled:
`duration`, the predecessor ids with the task's own `predecessor_delay`
(design note: "store predecessor ids, not direct links"), and the ids of
the task's eligible unique resources (`task.get_unique_resources()`).
The opaque `assignments` / `constraints` policy inputs are absorbed into
the abstract allocator function. -/
structure STask where
  id : String
  duration : Nat
  predecessor_ids : List String
  predecessor_delay : Nat
  resource_ids : List Nat
deriving Repr, DecidableEq

/-- The per-task mutable record of `HeuristicSolver.__init__`
(`self.task_vars[task_id]`), all fields initialised to `None`. -/
structure TaskVars where
  task_id : String
  assigned_resource_ids : Option (List Nat)
  task_start : Option Nat
  task_end : Option Nat
  resource_intervals : Option (List (Nat × Nat))
  error_message : Option String
deriving Repr, DecidableEq

/-- The freshly initialised record for a task id: every field `None`. -/
def TaskVars.init (tid : String) : TaskVars :=
  ⟨tid, none, none, none, none, none⟩

/-- The mutable state of a solve run: the `task_vars` table (an
insertion-ordered association list, like a Python dict) and the window
manager's per-resource calendars. -/
structure SolverState where
  task_vars : List (String × TaskVars)
  calendars : List (Nat × Calendar)
deriving Repr, DecidableEq

/-- The abstract `TaskAllocator.allocate_task`: from the windows of the
eligible resources and the task, either an allocation — an association
list mapping each chosen resource id to its `(start, end)` sub-interval —
or an `AllocationError` carrying a message.  Its body is not part of the
visible source, so the solver is parameterised over it. -/
abbrev Allocator := List (Nat × Calendar) → STask → Except String (List (Nat × (Nat × Nat)))

/-- Helper of `_get_task_earliest_start`: walks the predecessor ids,
reading each predecessor's recorded `task_end` from `task_vars`; returns
`none` as soon as one predecessor has no recorded end, otherwise the
list of `task_end + predecessor_delay` values. -/
def predEndsAux (task_vars : List (String × TaskVars)) (delay : Nat) :
    List String → Option (List Nat)
  | [] => some []
  | pid :: rest =>
    match (alookup pid task_vars).bind TaskVars.task_end with
    | none => none
    | some e => (predEndsAux task_vars delay rest).map (fun l => (e + delay) :: l)

/-- `HeuristicSolver._get_task_earliest_start`: the earliest start of a
task — `max(task_ends, default=0)` over the predecessors' recorded ends
plus the task's `predecessor_delay`, or `None` when some predecessor has
no recorded end. -/
def get_task_earliest_start (task_vars : List (String × TaskVars))
    (task : STask) : Option Nat :=
  (predEndsAux task_vars task.predecessor_delay task.predecessor_ids).map
    (fun l => l.foldl max 0)

/-- `HeuristicSolver._update_error_message`: writes only the
`error_message` field of the given task's record. -/
def update_error_message (task_vars : List (String × TaskVars))
    (tid : String) (msg : String) : List (String × TaskVars) :=
  task_vars.map (fun p =>
    if p.1 = tid then (p.1, { p.2 with error_message := some msg }) else p)

/-- The minimum of a list of naturals (`min(...)` in Python: `none` on
the empty list, which raises there). -/
def natsMin : List Nat → Option Nat
  | [] => none
  | x :: xs => some (xs.foldl min x)

/-- The maximum of a list of naturals (`max(...)` in Python). -/
def natsMax : List Nat → Option Nat
  | [] => none
  | x :: xs => some (xs.foldl max x)

/-- The `task_values` record written on the success path of `solve`:
`task_start` = min of the allocated starts, `task_end` = max of the
allocated ends, `assigned_resource_ids` = the keys of the allocation,
`resource_intervals` = its values; no error message. -/
def setScheduled (task_vars : List (String × TaskVars)) (tid : String)
    (a : List (Nat × (Nat × Nat))) (mn mx : Nat) : List (String × TaskVars) :=
  task_vars.map (fun p =>
    if p.1 = tid then
      (p.1, ⟨tid, some (a.map Prod.fst), some mn, some mx,
             some (a.map Prod.snd), none⟩)
    else p)

/-- One iteration of the `solve` loop body for a single task id.
`none` models the fatal outcomes that abort the Python run (a `KeyError`
on an unknown task id, a `ValueError` from `min()` on an empty
allocation, or the fatal commit invariant violation); `some` carries the
updated state, whether the task was scheduled or received a per-task
error message. -/
def processTask (alloc : Allocator) (task_dict : List (String × STask))
    (st : SolverState) (tid : String) : Option SolverState :=
  match alookup tid task_dict with
  | none => none
  | some task =>
    match get_task_earliest_start st.task_vars task with
    | none =>
      some ⟨update_error_message st.task_vars tid "Task has unscheduled predecessors",
            st.calendars⟩
    | some est =>
      if (get_task_resource_windows_dict st.calendars task.resource_ids est).isEmpty then
        some ⟨update_error_message st.task_vars tid "No available resources",
              st.calendars⟩
      else
        match alloc (get_task_resource_windows_dict st.calendars task.resource_ids est)
            task with
        | Except.error msg =>
          some ⟨update_error_message st.task_vars tid msg, st.calendars⟩
        | Except.ok a =>
          match update_resource_windows st.calendars a with
          | none => none
          | some cals' =>
            match natsMin (a.map (fun p => p.2.1)), natsMax (a.map (fun p => p.2.2)) with
            | some mn, some mx => some ⟨setScheduled st.task_vars tid a mn mx, cals'⟩
            | _, _ => none

/-- The `solve` loop: iterates the supplied task order, threading the
solver state; a fatal outcome aborts the run. -/
def solveLoop (alloc : Allocator) (task_dict : List (String × STask)) :
    List String → SolverState → Option SolverState
  | [], st => some st
  | tid :: rest, st =>
    match processTask alloc task_dict st tid with
    | none => none
    | some st' => solveLoop alloc task_dict rest st'

/-- `HeuristicSolver.__init__`: the `task_vars` table holds one
freshly-initialised record per task id, in the task dictionary's key
order; the window manager holds one calendar per resource. -/
def initState (task_dict : List (String × STask))
    (resources : List (Nat × Calendar)) : SolverState :=
  ⟨task_dict.map (fun p => (p.1, TaskVars.init p.1)), resources⟩

/-- `HeuristicSolver.solve`: runs the loop over the task order and
returns the values of the `task_vars` table as a list. -/
def solve (alloc : Allocator) (task_dict : List (String × STask))
    (resources : List (Nat × Calendar)) (task_order : List String) :
    Option (List TaskVars) :=
  (solveLoop alloc task_dict task_order (initState task_dict resources)).map
    (fun st => st.task_vars.map Prod.snd)

/-! ## The `Scheduler.py` entity model

The dataclasses `Resource`, `ResourceGroup` and `Task` of `Scheduler.py`
define `__eq__` and `__hash__` purely in terms of the entity id.  The
Python builtin `hash` applied to the id is kept abstract as a function
`h : Int → Int`. -/

namespace SchedulerPy

/-- An availability slot dict `{"slot_id": _, "start": _, "end": _}` as
used by `Scheduler.schedule`. -/
structure Slot where
  slot_id : Nat
  start : Nat
  «end» : Nat
deriving Repr, DecidableEq

/-- The `Resource` dataclass: an id and a list of availability slots. -/
structure Resource where
  id : Int
  availability_slots : List Slot
deriving Repr, DecidableEq

/-- `Resource.__eq__`: comparison of two resources reduces to their ids. -/
def Resource.eqv (a b : Resource) : Bool :=
  a.id == b.id

/-- `Resource.__hash__`: `hash(self.id)` for the builtin hash `h`. -/
def Resource.hashv (h : Int → Int) (a : Resource) : Int :=
  h a.id

/-- The `ResourceGroup` dataclass: a group id and a member list. -/
structure ResourceGroup where
  resource_group_id : Int
  resources : List Resource
deriving Repr, DecidableEq

/-- `ResourceGroup.__eq__`: comparison reduces to the group ids. -/
def ResourceGroup.eqv (a b : ResourceGroup) : Bool :=
  a.resource_group_id == b.resource_group_id

/-- `ResourceGroup.__hash__`: `hash(self.resource_group_id)`. -/
def ResourceGroup.hashv (h : Int → Int) (a : ResourceGroup) : Int :=
  h a.resource_group_id

/-- The `Task` dataclass: id, duration, priority, resource group and an
optional list of predecessor tasks (a recursive structure). -/
inductive Task where
  | mk (id : Int) (duration : Int) (priority : Int)
      (resource_group : ResourceGroup) (predecessors : Option (List Task))

/-- The `id` field of a `Task`. -/
def Task.id : Task → Int
  | .mk i _ _ _ _ => i

/-- `Task.__eq__`: comparison of two tasks reduces to their ids. -/
def Task.eqv (a b : Task) : Bool :=
  a.id == b.id

/-- `Task.__hash__`: `hash(self.id)`. -/
def Task.hashv (h : Int → Int) (a : Task) : Int :=
  h a.id

end SchedulerPy

/-! ## Basic lemmas -/

theorem self_le_foldl_max (l : List Nat) : ∀ a : Nat, a ≤ l.foldl max a := by
  induction l with
  | nil => intro a; exact Nat.le_refl a
  | cons x xs ih =>
    intro a
    exact le_trans (Nat.le_max_left a x) (ih (max a x))

theorem le_foldl_max (l : List Nat) : ∀ a : Nat, ∀ x ∈ l, x ≤ l.foldl max a := by
  induction l with
  | nil => intro a x hx; cases hx
  | cons y ys ih =>
    intro a x hx
    rcases List.mem_cons.mp hx with h | h
    · subst h
      exact le_trans (Nat.le_max_right a x) (self_le_foldl_max ys (max a x))
    · exact ih (max a y) x h

theorem foldl_max_mem (l : List Nat) : ∀ a : Nat, l.foldl max a = a ∨ l.foldl max a ∈ l := by
  induction l with
  | nil => intro a; left; rfl
  | cons y ys ih =>
    intro a
    rcases ih (max a y) with h | h
    · rcases max_choice a y with hm | hm
      · left; rw [List.foldl_cons, h, hm]
      · right; rw [List.foldl_cons, h, hm]; exact List.mem_cons_self y ys
    · right; exact List.mem_cons_of_mem y h

theorem predEndsAux_some (tv : List (String × TaskVars)) (delay : Nat)
    (l : List String)
    (h : ∀ pid ∈ l, ((alookup pid tv).bind TaskVars.task_end).isSome) :
    ∃ ends, predEndsAux tv delay l = some ends ∧
      (∀ x ∈ ends, ∃ pid ∈ l, ∃ e,
        (alookup pid tv).bind TaskVars.task_end = some e ∧ x = e + delay) ∧
      (∀ pid ∈ l, ∀ e,
        (alookup pid tv).bind TaskVars.task_end = some e → (e + delay) ∈ ends) ∧
      (l = [] → ends = []) := by
  induction l with
  | nil =>
    exact ⟨[], rfl, by simp, by simp, fun _ => rfl⟩
  | cons pid rest ih =>
    obtain ⟨e, he⟩ := Option.isSome_iff_exists.mp (h pid (by simp))
    obtain ⟨ends, hends, hmem, hall, -⟩ := ih (fun q hq => h q (by simp [hq]))
    refine ⟨(e + delay) :: ends, ?_, ?_, ?_, by simp⟩
    · simp [predEndsAux, he, hends]
    · intro x hx
      rcases List.mem_cons.mp hx with h1 | h1
      · exact ⟨pid, by simp, e, he, h1⟩
      · obtain ⟨q, hq, e', he', hx'⟩ := hmem x h1
        exact ⟨q, by simp [hq], e', he', hx'⟩
    · intro q hq e' he'
      rcases List.mem_cons.mp hq with h1 | h1
      · subst h1
        rw [he] at he'
        injection he' with hh
        simp [hh]
      · exact List.mem_cons_of_mem _ (hall q h1 e' he')

/-! ## Claim theorems -/

/-- C2: for a task all of whose predecessors have a recorded `task_end`,
`_get_task_earliest_start` returns exactly the maximum over the
predecessors of (that predecessor's recorded `task_end` plus the task's
own `predecessor_delay`), and returns `0` when the task has no
predecessors. -/
theorem get_task_earliest_start_is_max (tv : List (String × TaskVars)) (task : STask)
    (h : ∀ pid ∈ task.predecessor_ids,
      ((alookup pid tv).bind TaskVars.task_end).isSome) :
    ∃ m, get_task_earliest_start tv task = some m ∧
      (∀ pid ∈ task.predecessor_ids, ∀ e,
        (alookup pid tv).bind TaskVars.task_end = some e →
          e + task.predecessor_delay ≤ m) ∧
      ((∃ pid ∈ task.predecessor_ids, ∃ e,
        (alookup pid tv).bind TaskVars.task_end = some e ∧
          m = e + task.predecessor_delay) ∨ m = 0) ∧
      (task.predecessor_ids = [] → m = 0) := by
  obtain ⟨ends, hends, hmem, hall, hnil⟩ :=
    predEndsAux_some tv task.predecessor_delay task.predecessor_ids h
  refine ⟨ends.foldl max 0, ?_, ?_, ?_, ?_⟩
  · simp [get_task_earliest_start, hends]
  · intro pid hpid e he
    exact le_foldl_max ends 0 _ (hall pid hpid e he)
  · rcases foldl_max_mem ends 0 with h0 | hm
    · right; exact h0
    · left
      obtain ⟨pid, hpid, e, he, hx⟩ := hmem _ hm
      exact ⟨pid, hpid, e, he, hx⟩
  · intro ht
    rw [hnil ht]
    rfl

/-- Witness for C2: a task `T2` with single predecessor `T` recorded as
ending at 3 and `predecessor_delay = 2` gets earliest start 5. -/
theorem get_task_earliest_start_is_max_witness :
    (∀ pid ∈ (["T"] : List String),
      ((alookup pid [("T", ⟨"T", some [1], some 0, some 3, some [(0, 3)], none⟩)]).bind
        TaskVars.task_end).isSome) ∧
    (∃ m, get_task_earliest_start
        [("T", ⟨"T", some [1], some 0, some 3, some [(0, 3)], none⟩)]
        ⟨"T2", 1, ["T"], 2, [1]⟩ = some m ∧
      (∀ pid ∈ (["T"] : List String), ∀ e,
        (alookup pid [("T", ⟨"T", some [1], some 0, some 3, some [(0, 3)], none⟩)]).bind
          TaskVars.task_end = some e → e + 2 ≤ m) ∧
      ((∃ pid ∈ (["T"] : List String), ∃ e,
        (alookup pid [("T", ⟨"T", some [1], some 0, some 3, some [(0, 3)], none⟩)]).bind
          TaskVars.task_end = some e ∧ m = e + 2) ∨ m = 0) ∧
      ((["T"] : List String) = [] → m = 0)) ∧
    get_task_earliest_start
      [("T", ⟨"T", some [1], some 0, some 3, some [(0, 3)], none⟩)]
      ⟨"T2", 1, ["T"], 2, [1]⟩ = some 5 := by
  refine ⟨by decide, ?_, by decide⟩
  exact get_task_earliest_start_is_max
    [("T", ⟨"T", some [1], some 0, some 3, some [(0, 3)], none⟩)]
    ⟨"T2", 1, ["T"], 2, [1]⟩ (by decide)

/-- C9: for the `Scheduler.py` dataclasses, two `Resource`s, two
`ResourceGroup`s or two `Task`s compare equal exactly when their ids are
equal, irrespective of every other attribute, and equal ids give equal
hash values (`hash(self.id)` for the builtin hash `h`). -/
theorem entity_equality_is_id_based (h : Int → Int) :
    (∀ a b : SchedulerPy.Resource,
      (SchedulerPy.Resource.eqv a b = true ↔ a.id = b.id) ∧
      (a.id = b.id →
        SchedulerPy.Resource.hashv h a = SchedulerPy.Resource.hashv h b)) ∧
    (∀ a b : SchedulerPy.ResourceGroup,
      (SchedulerPy.ResourceGroup.eqv a b = true ↔
        a.resource_group_id = b.resource_group_id) ∧
      (a.resource_group_id = b.resource_group_id →
        SchedulerPy.ResourceGroup.hashv h a = SchedulerPy.ResourceGroup.hashv h b)) ∧
    (∀ a b : SchedulerPy.Task,
      (SchedulerPy.Task.eqv a b = true ↔ a.id = b.id) ∧
      (a.id = b.id →
        SchedulerPy.Task.hashv h a = SchedulerPy.Task.hashv h b)) := by
  refine ⟨fun a b => ⟨?_, ?_⟩, fun a b => ⟨?_, ?_⟩, fun a b => ⟨?_, ?_⟩⟩
  · simp [SchedulerPy.Resource.eqv]
  · intro hid; simp [SchedulerPy.Resource.hashv, hid]
  · simp [SchedulerPy.ResourceGroup.eqv]
  · intro hid; simp [SchedulerPy.ResourceGroup.hashv, hid]
  · simp [SchedulerPy.Task.eqv]
  · intro hid; simp [SchedulerPy.Task.hashv, hid]

/-- Witness for C9: resources sharing id 1 but with different
availability slots compare equal and hash equal; tasks sharing id 5 with
different durations, priorities, groups and predecessors compare
equal. -/
theorem entity_equality_is_id_based_witness :
    SchedulerPy.Resource.eqv ⟨1, [⟨0, 0, 4⟩]⟩ ⟨1, []⟩ = true ∧
    SchedulerPy.Resource.hashv (fun x => x) ⟨1, [⟨0, 0, 4⟩]⟩ =
      SchedulerPy.Resource.hashv (fun x => x) ⟨1, []⟩ ∧
    SchedulerPy.ResourceGroup.eqv ⟨2, [⟨1, []⟩]⟩ ⟨2, []⟩ = true ∧
    SchedulerPy.Task.eqv (.mk 5 3 1 ⟨2, []⟩ none) (.mk 5 9 7 ⟨4, []⟩ (some [])) = true := by
  have H := entity_equality_is_id_based (fun x => x)
  exact ⟨(H.1 _ _).1.mpr rfl, (H.1 _ _).2 rfl, (H.2.1 _ _).1.mpr rfl,
    (H.2.2 _ _).1.mpr rfl⟩

/-! ## Lemmas about the error path -/

theorem update_error_message_lookup_self (tv : List (String × TaskVars))
    (tid : String) (msg : String) :
    alookup tid (update_error_message tv tid msg) =
      (alookup tid tv).map (fun r => { r with error_message := some msg }) := by
  induction tv with
  | nil => rfl
  | cons p rest ih =>
    by_cases hp : p.1 = tid
    · simp [update_error_message, alookup, hp]
    · simp [update_error_message, alookup, hp] at ih ⊢
      exact ih

theorem update_error_message_lookup_other (tv : List (String × TaskVars))
    (tid : String) (msg : String) (k : String) (hk : k ≠ tid) :
    alookup k (update_error_message tv tid msg) = alookup k tv := by
  induction tv with
  | nil => rfl
  | cons p rest ih =>
    simp only [update_error_message, List.map_cons] at ih ⊢
    by_cases hp : p.1 = tid
    · have hpk : ¬ p.1 = k := fun hh => hk (hh ▸ hp)
      simp only [if_pos hp, alookup, if_neg hpk]
      exact ih
    · simp only [if_neg hp, alookup]
      by_cases hq : p.1 = k
      · simp only [if_pos hq]
      · simp only [if_neg hq]
        exact ih

theorem predEndsAux_eq_none_iff (tv : List (String × TaskVars)) (delay : Nat)
    (l : List String) :
    predEndsAux tv delay l = none ↔
      ∃ pid ∈ l, (alookup pid tv).bind TaskVars.task_end = none := by
  induction l with
  | nil => simp [predEndsAux]
  | cons pid rest ih =>
    simp only [predEndsAux]
    cases he : (alookup pid tv).bind TaskVars.task_end with
    | none =>
      constructor
      · intro _
        exact ⟨pid, by simp, he⟩
      · intro _
        rfl
    | some e =>
      cases hr : predEndsAux tv delay rest with
      | none =>
        constructor
        · intro _
          obtain ⟨q, hq, hqe⟩ := ih.mp hr
          exact ⟨q, List.mem_cons_of_mem _ hq, hqe⟩
        · intro _
          rfl
      | some ends =>
        constructor
        · intro hc
          simp at hc
        · intro hc
          obtain ⟨q, hq, hqe⟩ := hc
          rcases List.mem_cons.mp hq with h1 | h1
          · subst h1
            rw [he] at hqe
            cases hqe
          · have h2 := ih.mpr ⟨q, h1, hqe⟩
            rw [h2] at hr
            cases hr

theorem get_task_earliest_start_eq_none_iff (tv : List (String × TaskVars))
    (task : STask) :
    get_task_earliest_start tv task = none ↔
      ∃ pid ∈ task.predecessor_ids,
        (alookup pid tv).bind TaskVars.task_end = none := by
  rw [← predEndsAux_eq_none_iff tv task.predecessor_delay task.predecessor_ids]
  unfold get_task_earliest_start
  cases h : predEndsAux tv task.predecessor_delay task.predecessor_ids with
  | none => simp
  | some ends => simp

/-- C4: a task one of whose predecessors has no recorded `task_end` gets
exactly the error message "Task has unscheduled predecessors"; no
allocation and no commit happen (the outcome is the same for every
allocator and the calendars are unchanged), its own `task_end` stays
undefined, and every successor listing it as a predecessor is blocked in
turn (its earliest-start computation also yields `none`). -/
theorem solve_blocked_on_unscheduled_predecessor
    (task_dict : List (String × STask)) (st : SolverState)
    (tid : String) (task : STask)
    (hfind : alookup tid task_dict = some task)
    (hblock : ∃ pid ∈ task.predecessor_ids,
      (alookup pid st.task_vars).bind TaskVars.task_end = none)
    (hend : (alookup tid st.task_vars).bind TaskVars.task_end = none) :
    ∀ alloc : Allocator,
      processTask alloc task_dict st tid =
        some ⟨update_error_message st.task_vars tid "Task has unscheduled predecessors",
              st.calendars⟩ ∧
      alookup tid (update_error_message st.task_vars tid
          "Task has unscheduled predecessors") =
        (alookup tid st.task_vars).map
          (fun r => { r with error_message := some "Task has unscheduled predecessors" }) ∧
      (alookup tid (update_error_message st.task_vars tid
          "Task has unscheduled predecessors")).bind TaskVars.task_end = none ∧
      ∀ succ : STask, tid ∈ succ.predecessor_ids →
        get_task_earliest_start (update_error_message st.task_vars tid
          "Task has unscheduled predecessors") succ = none := by
  intro alloc
  have hes : get_task_earliest_start st.task_vars task = none :=
    (get_task_earliest_start_eq_none_iff _ _).mpr hblock
  have hself := update_error_message_lookup_self st.task_vars tid
    "Task has unscheduled predecessors"
  have hend' : (alookup tid (update_error_message st.task_vars tid
      "Task has unscheduled predecessors")).bind TaskVars.task_end = none := by
    rw [hself]
    cases hl : alookup tid st.task_vars with
    | none => rfl
    | some r =>
      rw [hl] at hend
      exact hend
  refine ⟨?_, hself, hend', ?_⟩
  · simp [processTask, hfind, hes]
  · intro succ hsucc
    exact (get_task_earliest_start_eq_none_iff _ _).mpr ⟨tid, hsucc, hend'⟩

/-- Witness for C4: task "B" depends on "A", which has no recorded end in
the freshly initialised state. -/
theorem solve_blocked_on_unscheduled_predecessor_witness :
    alookup "B" [("A", (⟨"A", 3, [], 0, [1]⟩ : STask)), ("B", ⟨"B", 2, ["A"], 0, [1]⟩)] =
      some ⟨"B", 2, ["A"], 0, [1]⟩ ∧
    (∃ pid ∈ ["A"],
      (alookup pid (initState
        [("A", (⟨"A", 3, [], 0, [1]⟩ : STask)), ("B", ⟨"B", 2, ["A"], 0, [1]⟩)]
        [(1, [(0, 4)])]).task_vars).bind TaskVars.task_end = none) ∧
    processTask (fun _ _ => Except.error "unused")
      [("A", (⟨"A", 3, [], 0, [1]⟩ : STask)), ("B", ⟨"B", 2, ["A"], 0, [1]⟩)]
      (initState
        [("A", (⟨"A", 3, [], 0, [1]⟩ : STask)), ("B", ⟨"B", 2, ["A"], 0, [1]⟩)]
        [(1, [(0, 4)])]) "B" =
      some ⟨update_error_message (initState
        [("A", (⟨"A", 3, [], 0, [1]⟩ : STask)), ("B", ⟨"B", 2, ["A"], 0, [1]⟩)]
        [(1, [(0, 4)])]).task_vars "B" "Task has unscheduled predecessors",
        [(1, [(0, 4)])]⟩ := by
  refine ⟨by decide, ⟨"A", by decide, by decide⟩, ?_⟩
  exact (solve_blocked_on_unscheduled_predecessor
    [("A", (⟨"A", 3, [], 0, [1]⟩ : STask)), ("B", ⟨"B", 2, ["A"], 0, [1]⟩)]
    (initState
      [("A", (⟨"A", 3, [], 0, [1]⟩ : STask)), ("B", ⟨"B", 2, ["A"], 0, [1]⟩)]
      [(1, [(0, 4)])]) "B" ⟨"B", 2, ["A"], 0, [1]⟩
    (by decide) ⟨"A", by decide, by decide⟩ (by decide)
    (fun _ _ => Except.error "unused")).1

/-- C3: when the allocator raises `AllocationError` with message `msg`,
the solver records exactly `msg` as the task's `error_message`, leaves
every resource calendar unchanged (no commit), leaves every other task's
record unchanged, and the loop continues with the next task in the
order. -/
theorem solve_allocation_error_recovery
    (alloc : Allocator) (task_dict : List (String × STask)) (st : SolverState)
    (tid : String) (task : STask) (est : Nat) (msg : String)
    (hfind : alookup tid task_dict = some task)
    (hes : get_task_earliest_start st.task_vars task = some est)
    (hne : (get_task_resource_windows_dict st.calendars task.resource_ids est).isEmpty
      = false)
    (halloc : alloc (get_task_resource_windows_dict st.calendars task.resource_ids est)
      task = Except.error msg) :
    processTask alloc task_dict st tid =
      some ⟨update_error_message st.task_vars tid msg, st.calendars⟩ ∧
    alookup tid (update_error_message st.task_vars tid msg) =
      (alookup tid st.task_vars).map (fun r => { r with error_message := some msg }) ∧
    (∀ k, k ≠ tid →
      alookup k (update_error_message st.task_vars tid msg) = alookup k st.task_vars) ∧
    ∀ rest, solveLoop alloc task_dict (tid :: rest) st =
      solveLoop alloc task_dict rest
        ⟨update_error_message st.task_vars tid msg, st.calendars⟩ := by
  have h1 : processTask alloc task_dict st tid =
      some ⟨update_error_message st.task_vars tid msg, st.calendars⟩ := by
    simp [processTask, hfind, hes, hne, halloc]
  refine ⟨h1, update_error_message_lookup_self st.task_vars tid msg,
    fun k hk => update_error_message_lookup_other st.task_vars tid msg k hk, ?_⟩
  intro rest
  simp [solveLoop, h1]

/-- Witness for C3: a one-task run whose allocator always fails with
"insufficient availability". -/
theorem solve_allocation_error_recovery_witness :
    alookup "A" [("A", (⟨"A", 3, [], 0, [1]⟩ : STask))] = some ⟨"A", 3, [], 0, [1]⟩ ∧
    get_task_earliest_start (initState [("A", (⟨"A", 3, [], 0, [1]⟩ : STask))]
      [(1, [(0, 4)])]).task_vars ⟨"A", 3, [], 0, [1]⟩ = some 0 ∧
    processTask (fun _ _ => Except.error "insufficient availability")
      [("A", (⟨"A", 3, [], 0, [1]⟩ : STask))]
      (initState [("A", (⟨"A", 3, [], 0, [1]⟩ : STask))] [(1, [(0, 4)])]) "A" =
      some ⟨update_error_message (initState [("A", (⟨"A", 3, [], 0, [1]⟩ : STask))]
          [(1, [(0, 4)])]).task_vars "A" "insufficient availability",
        [(1, [(0, 4)])]⟩ := by
  refine ⟨by decide, by decide, ?_⟩
  exact (solve_allocation_error_recovery
    (fun _ _ => Except.error "insufficient availability")
    [("A", (⟨"A", 3, [], 0, [1]⟩ : STask))]
    (initState [("A", (⟨"A", 3, [], 0, [1]⟩ : STask))] [(1, [(0, 4)])])
    "A" ⟨"A", 3, [], 0, [1]⟩ 0 "insufficient availability"
    (by decide) (by decide) (by decide) rfl).1

/-- C5: when the window manager returns an empty mapping for the task's
eligible resources at its earliest start, the solver records the error
message "No available resources" without invoking the allocator (the
outcome is identical for every allocator, and the calendars are
unchanged), and the loop continues with the next task. -/
theorem solve_no_available_resources
    (task_dict : List (String × STask)) (st : SolverState)
    (tid : String) (task : STask) (est : Nat)
    (hfind : alookup tid task_dict = some task)
    (hes : get_task_earliest_start st.task_vars task = some est)
    (hempty : (get_task_resource_windows_dict st.calendars task.resource_ids est).isEmpty
      = true) :
    ∀ alloc : Allocator,
      processTask alloc task_dict st tid =
        some ⟨update_error_message st.task_vars tid "No available resources",
              st.calendars⟩ ∧
      alookup tid (update_error_message st.task_vars tid "No available resources") =
        (alookup tid st.task_vars).map
          (fun r => { r with error_message := some "No available resources" }) ∧
      ∀ rest, solveLoop alloc task_dict (tid :: rest) st =
        solveLoop alloc task_dict rest
          ⟨update_error_message st.task_vars tid "No available resources",
           st.calendars⟩ := by
  intro alloc
  have h1 : processTask alloc task_dict st tid =
      some ⟨update_error_message st.task_vars tid "No available resources",
            st.calendars⟩ := by
    simp [processTask, hfind, hes, hempty]
  refine ⟨h1,
    update_error_message_lookup_self st.task_vars tid "No available resources", ?_⟩
  intro rest
  simp [solveLoop, h1]

/-- Witness for C5: resource 1 has no windows at all, so the window
mapping for task "A" is empty and the task gets "No available
resources" whatever the allocator is. -/
theorem solve_no_available_resources_witness :
    alookup "A" [("A", (⟨"A", 3, [], 0, [1]⟩ : STask))] = some ⟨"A", 3, [], 0, [1]⟩ ∧
    (get_task_resource_windows_dict [(1, ([] : Calendar))] [1] 0).isEmpty = true ∧
    processTask (fun _ _ => Except.ok [(1, (0, 3))])
      [("A", (⟨"A", 3, [], 0, [1]⟩ : STask))]
      (initState [("A", (⟨"A", 3, [], 0, [1]⟩ : STask))] [(1, [])]) "A" =
      some ⟨update_error_message (initState [("A", (⟨"A", 3, [], 0, [1]⟩ : STask))]
          [(1, [])]).task_vars "A" "No available resources", [(1, [])]⟩ := by
  refine ⟨by decide, by decide, ?_⟩
  exact ((solve_no_available_resources
    [("A", (⟨"A", 3, [], 0, [1]⟩ : STask))]
    (initState [("A", (⟨"A", 3, [], 0, [1]⟩ : STask))] [(1, [])])
    "A" ⟨"A", 3, [], 0, [1]⟩ 0
    (by decide) (by decide) (by decide)) (fun _ _ => Except.ok [(1, (0, 3))])).1

/-! ## Minimum / maximum of the allocated intervals -/

theorem foldl_min_le_self (l : List Nat) : ∀ a : Nat, l.foldl min a ≤ a := by
  induction l with
  | nil => intro a; exact Nat.le_refl a
  | cons x xs ih =>
    intro a
    exact le_trans (ih (min a x)) (Nat.min_le_left a x)

theorem foldl_min_le (l : List Nat) : ∀ a : Nat, ∀ x ∈ l, l.foldl min a ≤ x := by
  induction l with
  | nil => intro a x hx; cases hx
  | cons y ys ih =>
    intro a x hx
    rcases List.mem_cons.mp hx with h | h
    · subst h
      exact le_trans (foldl_min_le_self ys (min a x)) (Nat.min_le_right a x)
    · exact ih (min a y) x h

theorem foldl_min_mem (l : List Nat) : ∀ a : Nat, l.foldl min a = a ∨ l.foldl min a ∈ l := by
  induction l with
  | nil => intro a; left; rfl
  | cons y ys ih =>
    intro a
    rcases ih (min a y) with h | h
    · rcases min_choice a y with hm | hm
      · left; rw [List.foldl_cons, h, hm]
      · right; rw [List.foldl_cons, h, hm]; exact List.mem_cons_self y ys
    · right; exact List.mem_cons_of_mem y h

theorem natsMin_le (l : List Nat) (m : Nat) (h : natsMin l = some m) :
    ∀ x ∈ l, m ≤ x := by
  cases l with
  | nil => cases h
  | cons y ys =>
    injection h with h'
    intro x hx
    rcases List.mem_cons.mp hx with h1 | h1
    · subst h1 h'
      exact foldl_min_le_self ys x
    · rw [← h']
      exact foldl_min_le ys y x h1

theorem natsMin_mem (l : List Nat) (m : Nat) (h : natsMin l = some m) : m ∈ l := by
  cases l with
  | nil => cases h
  | cons y ys =>
    injection h with h'
    rcases foldl_min_mem ys y with h1 | h1
    · rw [← h', h1]; exact List.mem_cons_self y ys
    · rw [← h']; exact List.mem_cons_of_mem y h1

theorem natsMax_le (l : List Nat) (m : Nat) (h : natsMax l = some m) :
    ∀ x ∈ l, x ≤ m := by
  cases l with
  | nil => cases h
  | cons y ys =>
    injection h with h'
    intro x hx
    rcases List.mem_cons.mp hx with h1 | h1
    · subst h1 h'
      exact self_le_foldl_max ys x
    · rw [← h']
      exact le_foldl_max ys y x h1

theorem natsMax_mem (l : List Nat) (m : Nat) (h : natsMax l = some m) : m ∈ l := by
  cases l with
  | nil => cases h
  | cons y ys =>
    injection h with h'
    rcases foldl_max_mem ys y with h1 | h1
    · rw [← h', h1]; exact List.mem_cons_self y ys
    · rw [← h']; exact List.mem_cons_of_mem y h1

theorem setScheduled_lookup_self (tv : List (String × TaskVars)) (tid : String)
    (a : List (Nat × (Nat × Nat))) (mn mx : Nat) :
    alookup tid (setScheduled tv tid a mn mx) =
      (alookup tid tv).map (fun _ =>
        (⟨tid, some (a.map Prod.fst), some mn, some mx,
          some (a.map Prod.snd), none⟩ : TaskVars)) := by
  induction tv with
  | nil => rfl
  | cons p rest ih =>
    simp only [setScheduled, List.map_cons] at ih ⊢
    by_cases hp : p.1 = tid
    · simp only [if_pos hp, alookup, if_pos hp]
      rfl
    · simp only [if_neg hp, alookup, if_neg hp]
      exact ih

/-- C6: on the success path, the recorded `task_start` is the minimum
start and the recorded `task_end` the maximum end over the allocator's
returned per-resource intervals, the recorded `assigned_resource_ids`
are exactly the resource ids of that allocation, and `task_start ≤
task_end`. -/
theorem solve_scheduled_aggregates
    (alloc : Allocator) (task_dict : List (String × STask)) (st : SolverState)
    (tid : String) (task : STask) (est : Nat)
    (a : List (Nat × (Nat × Nat))) (cals' : List (Nat × Calendar))
    (hfind : alookup tid task_dict = some task)
    (hes : get_task_earliest_start st.task_vars task = some est)
    (hne : (get_task_resource_windows_dict st.calendars task.resource_ids est).isEmpty
      = false)
    (halloc : alloc (get_task_resource_windows_dict st.calendars task.resource_ids est)
      task = Except.ok a)
    (hane : a ≠ [])
    (hints : ∀ p ∈ a, p.2.1 ≤ p.2.2)
    (hcommit : update_resource_windows st.calendars a = some cals') :
    ∃ mn mx,
      processTask alloc task_dict st tid =
        some ⟨setScheduled st.task_vars tid a mn mx, cals'⟩ ∧
      alookup tid (setScheduled st.task_vars tid a mn mx) =
        (alookup tid st.task_vars).map (fun _ =>
          (⟨tid, some (a.map Prod.fst), some mn, some mx,
            some (a.map Prod.snd), none⟩ : TaskVars)) ∧
      (∀ p ∈ a, mn ≤ p.2.1 ∧ p.2.2 ≤ mx) ∧
      mn ∈ a.map (fun p => p.2.1) ∧
      mx ∈ a.map (fun p => p.2.2) ∧
      mn ≤ mx := by
  cases hmn : natsMin (a.map (fun p => p.2.1)) with
  | none =>
    cases a with
    | nil => exact absurd rfl hane
    | cons p r => cases hmn
  | some mn =>
    cases hmx : natsMax (a.map (fun p => p.2.2)) with
    | none =>
      cases a with
      | nil => exact absurd rfl hane
      | cons p r => cases hmx
    | some mx =>
      have hmnmem := natsMin_mem _ _ hmn
      have hmxmem := natsMax_mem _ _ hmx
      have hbnd : ∀ p ∈ a, mn ≤ p.2.1 ∧ p.2.2 ≤ mx := by
        intro p hp
        exact ⟨natsMin_le _ _ hmn _ (List.mem_map_of_mem _ hp),
          natsMax_le _ _ hmx _ (List.mem_map_of_mem _ hp)⟩
      have hmnmx : mn ≤ mx := by
        obtain ⟨p, hp, hpe⟩ := List.mem_map.mp hmnmem
        calc mn = p.2.1 := hpe.symm
          _ ≤ p.2.2 := hints p hp
          _ ≤ mx := (hbnd p hp).2
      refine ⟨mn, mx, ?_, setScheduled_lookup_self st.task_vars tid a mn mx,
        hbnd, hmnmem, hmxmem, hmnmx⟩
      simp [processTask, hfind, hes, hne, halloc, hcommit, hmn, hmx]

/-- Witness for C6: task "A" (duration 3) allocated `[0, 3)` on resource
1, whose calendar `[[0,4),[5,10)]` commits to `[[3,4),[5,10)]`. -/
theorem solve_scheduled_aggregates_witness :
    update_resource_windows [(1, [(0, 4), (5, 10)])] [(1, (0, 3))] =
      some [(1, [(3, 4), (5, 10)])] ∧
    (∃ mn mx,
      processTask (fun _ _ => Except.ok [(1, (0, 3))])
        [("A", (⟨"A", 3, [], 0, [1]⟩ : STask))]
        (initState [("A", (⟨"A", 3, [], 0, [1]⟩ : STask))] [(1, [(0, 4), (5, 10)])])
        "A" =
        some ⟨setScheduled (initState [("A", (⟨"A", 3, [], 0, [1]⟩ : STask))]
            [(1, [(0, 4), (5, 10)])]).task_vars "A" [(1, (0, 3))] mn mx,
          [(1, [(3, 4), (5, 10)])]⟩ ∧
      alookup "A" (setScheduled (initState [("A", (⟨"A", 3, [], 0, [1]⟩ : STask))]
          [(1, [(0, 4), (5, 10)])]).task_vars "A" [(1, (0, 3))] mn mx) =
        (alookup "A" (initState [("A", (⟨"A", 3, [], 0, [1]⟩ : STask))]
          [(1, [(0, 4), (5, 10)])]).task_vars).map (fun _ =>
          (⟨"A", some ([(1, (0, 3))].map Prod.fst), some mn, some mx,
            some ([(1, (0, 3))].map Prod.snd), none⟩ : TaskVars)) ∧
      (∀ p ∈ [(1, (0, 3))], mn ≤ p.2.1 ∧ p.2.2 ≤ mx) ∧
      mn ∈ [(1, (0, 3))].map (fun p => p.2.1) ∧
      mx ∈ [(1, (0, 3))].map (fun p => p.2.2) ∧
      mn ≤ mx) := by
  refine ⟨by decide, ?_⟩
  exact solve_scheduled_aggregates (fun _ _ => Except.ok [(1, (0, 3))])
    [("A", (⟨"A", 3, [], 0, [1]⟩ : STask))]
    (initState [("A", (⟨"A", 3, [], 0, [1]⟩ : STask))] [(1, [(0, 4), (5, 10)])])
    "A" ⟨"A", 3, [], 0, [1]⟩ 0 [(1, (0, 3))] [(1, [(3, 4), (5, 10)])]
    (by decide) (by decide) (by decide) rfl (by decide) (by decide) (by decide)

/-! ## Shape of a single loop iteration -/

theorem processTask_shape (alloc : Allocator) (task_dict : List (String × STask))
    (st : SolverState) (tid : String) (st' : SolverState)
    (h : processTask alloc task_dict st tid = some st') :
    ((∃ msg, st'.task_vars = update_error_message st.task_vars tid msg) ∧
      st'.calendars = st.calendars) ∨
    (∃ a mn mx, st'.task_vars = setScheduled st.task_vars tid a mn mx ∧
      update_resource_windows st.calendars a = some st'.calendars) := by
  unfold processTask at h
  split at h
  · cases h
  · split at h
    · injection h with h'
      subst h'
      exact Or.inl ⟨⟨_, rfl⟩, rfl⟩
    · split at h
      · injection h with h'
        subst h'
        exact Or.inl ⟨⟨_, rfl⟩, rfl⟩
      · split at h
        · injection h with h'
          subst h'
          exact Or.inl ⟨⟨_, rfl⟩, rfl⟩
        · rename_i a ha
          split at h
          · cases h
          · rename_i cals' hc
            split at h
            · injection h with h'
              subst h'
              exact Or.inr ⟨a, _, _, rfl, hc⟩
            · cases h

/-! ## Keys and task ids through the loop (for the result-order claim) -/

theorem update_error_message_keys (tv : List (String × TaskVars))
    (tid : String) (msg : String) :
    (update_error_message tv tid msg).map Prod.fst = tv.map Prod.fst := by
  induction tv with
  | nil => rfl
  | cons p rest ih =>
    simp only [update_error_message, List.map_cons] at ih ⊢
    by_cases hp : p.1 = tid
    · simp only [if_pos hp, ih]
    · simp only [if_neg hp, ih]

theorem setScheduled_keys (tv : List (String × TaskVars)) (tid : String)
    (a : List (Nat × (Nat × Nat))) (mn mx : Nat) :
    (setScheduled tv tid a mn mx).map Prod.fst = tv.map Prod.fst := by
  induction tv with
  | nil => rfl
  | cons p rest ih =>
    simp only [setScheduled, List.map_cons] at ih ⊢
    by_cases hp : p.1 = tid
    · simp only [if_pos hp, ih]
    · simp only [if_neg hp, ih]

theorem update_error_message_taskid (tv : List (String × TaskVars))
    (tid : String) (msg : String)
    (h : ∀ p ∈ tv, TaskVars.task_id p.2 = p.1) :
    ∀ p ∈ update_error_message tv tid msg, TaskVars.task_id p.2 = p.1 := by
  intro p hp
  simp only [update_error_message, List.mem_map] at hp
  obtain ⟨q, hq, hqe⟩ := hp
  by_cases h1 : q.1 = tid
  · rw [if_pos h1] at hqe
    subst hqe
    exact h q hq
  · rw [if_neg h1] at hqe
    subst hqe
    exact h q hq

theorem setScheduled_taskid (tv : List (String × TaskVars)) (tid : String)
    (a : List (Nat × (Nat × Nat))) (mn mx : Nat)
    (h : ∀ p ∈ tv, TaskVars.task_id p.2 = p.1) :
    ∀ p ∈ setScheduled tv tid a mn mx, TaskVars.task_id p.2 = p.1 := by
  intro p hp
  simp only [setScheduled, List.mem_map] at hp
  obtain ⟨q, hq, hqe⟩ := hp
  by_cases h1 : q.1 = tid
  · rw [if_pos h1] at hqe
    subst hqe
    simp [h1]
  · rw [if_neg h1] at hqe
    subst hqe
    exact h q hq

theorem solveLoop_keys_taskid (alloc : Allocator) (task_dict : List (String × STask)) :
    ∀ (order : List String) (st st' : SolverState),
      solveLoop alloc task_dict order st = some st' →
      (∀ p ∈ st.task_vars, TaskVars.task_id p.2 = p.1) →
      (st'.task_vars.map Prod.fst = st.task_vars.map Prod.fst ∧
        ∀ p ∈ st'.task_vars, TaskVars.task_id p.2 = p.1) := by
  intro order
  induction order with
  | nil =>
    intro st st' h hinv
    injection h with h'
    subst h'
    exact ⟨rfl, hinv⟩
  | cons tid rest ih =>
    intro st st' h hinv
    unfold solveLoop at h
    cases hp : processTask alloc task_dict st tid with
    | none => rw [hp] at h; cases h
    | some st₁ =>
      rw [hp] at h
      rcases processTask_shape alloc task_dict st tid st₁ hp with
        ⟨⟨msg, htv⟩, -⟩ | ⟨a, mn, mx, htv, -⟩
      · have hinv₁ : ∀ p ∈ st₁.task_vars, TaskVars.task_id p.2 = p.1 := by
          rw [htv]; exact update_error_message_taskid _ _ _ hinv
        obtain ⟨hk, hi⟩ := ih st₁ st' h hinv₁
        refine ⟨?_, hi⟩
        rw [hk, htv, update_error_message_keys]
      · have hinv₁ : ∀ p ∈ st₁.task_vars, TaskVars.task_id p.2 = p.1 := by
          rw [htv]; exact setScheduled_taskid _ _ _ _ _ hinv
        obtain ⟨hk, hi⟩ := ih st₁ st' h hinv₁
        refine ⟨?_, hi⟩
        rw [hk, htv, setScheduled_keys]

/-- C7: a successful `solve` run returns exactly one result record per
task id of the input task dictionary, in the dictionary's original key
order, whatever the task visitation order was and whichever tasks
failed. -/
theorem solve_returns_one_record_per_task
    (alloc : Allocator) (task_dict : List (String × STask))
    (resources : List (Nat × Calendar)) (task_order : List String)
    (res : List TaskVars)
    (h : solve alloc task_dict resources task_order = some res) :
    res.map TaskVars.task_id = task_dict.map Prod.fst := by
  unfold solve at h
  cases hs : solveLoop alloc task_dict task_order (initState task_dict resources) with
  | none => rw [hs] at h; cases h
  | some st' =>
    rw [hs] at h
    injection h with h'
    subst h'
    have hinv0 : ∀ p ∈ (initState task_dict resources).task_vars,
        TaskVars.task_id p.2 = p.1 := by
      intro p hp
      simp only [initState, List.mem_map] at hp
      obtain ⟨q, -, hqe⟩ := hp
      subst hqe
      rfl
    obtain ⟨hk, hi⟩ := solveLoop_keys_taskid alloc task_dict task_order
      (initState task_dict resources) st' hs hinv0
    have h1 : (st'.task_vars.map Prod.snd).map TaskVars.task_id =
        st'.task_vars.map Prod.fst := by
      rw [List.map_map]
      exact List.map_congr_left (fun p hp => hi p hp)
    have h2 : (initState task_dict resources).task_vars.map Prod.fst =
        task_dict.map Prod.fst := by
      simp [initState, List.map_map]
    rw [h1, hk, h2]

/-- Witness for C7: two tasks visited in reverse order on an empty
calendar still yield one record per task, in the dictionary's key
order. -/
theorem solve_returns_one_record_per_task_witness :
    solve (fun _ _ => Except.error "x")
      [("A", (⟨"A", 3, [], 0, [1]⟩ : STask)), ("B", ⟨"B", 2, [], 0, [1]⟩)]
      [(1, [])] ["B", "A"] =
      some [⟨"A", none, none, none, none, some "No available resources"⟩,
            ⟨"B", none, none, none, none, some "No available resources"⟩] ∧
    ([(⟨"A", none, none, none, none, some "No available resources"⟩ : TaskVars),
      ⟨"B", none, none, none, none, some "No available resources"⟩].map
        TaskVars.task_id) =
      [("A", (⟨"A", 3, [], 0, [1]⟩ : STask)), ("B", ⟨"B", 2, [], 0, [1]⟩)].map
        Prod.fst := by
  refine ⟨by decide, ?_⟩
  exact solve_returns_one_record_per_task (fun _ _ => Except.error "x")
    [("A", (⟨"A", 3, [], 0, [1]⟩ : STask)), ("B", ⟨"B", 2, [], 0, [1]⟩)]
    [(1, [])] ["B", "A"]
    [⟨"A", none, none, none, none, some "No available resources"⟩,
     ⟨"B", none, none, none, none, some "No available resources"⟩]
    (by decide)

/-- C10: on every error outcome — blocked predecessors, no available
resources, or allocation failure — the solver writes only the failed
task's `error_message`: the record's other fields keep their initial
`None` values, every other task's record is untouched, the calendars are
unchanged, and successors of the failed task observe `task_end = none`
(and are therefore blocked themselves). -/
theorem error_paths_write_only_error_message
    (alloc : Allocator) (task_dict : List (String × STask)) (st : SolverState)
    (tid : String) (task : STask)
    (hfind : alookup tid task_dict = some task)
    (hinit : alookup tid st.task_vars = some (TaskVars.init tid))
    (herr : get_task_earliest_start st.task_vars task = none ∨
      (∃ est, get_task_earliest_start st.task_vars task = some est ∧
        (get_task_resource_windows_dict st.calendars task.resource_ids est).isEmpty
          = true) ∨
      (∃ est msg, get_task_earliest_start st.task_vars task = some est ∧
        (get_task_resource_windows_dict st.calendars task.resource_ids est).isEmpty
          = false ∧
        alloc (get_task_resource_windows_dict st.calendars task.resource_ids est)
          task = Except.error msg)) :
    ∃ msg st',
      processTask alloc task_dict st tid = some st' ∧
      st'.calendars = st.calendars ∧
      st'.task_vars = update_error_message st.task_vars tid msg ∧
      alookup tid st'.task_vars = some ⟨tid, none, none, none, none, some msg⟩ ∧
      (∀ k, k ≠ tid → alookup k st'.task_vars = alookup k st.task_vars) ∧
      ∀ succ : STask, tid ∈ succ.predecessor_ids →
        get_task_earliest_start st'.task_vars succ = none := by
  have key : ∃ msg, processTask alloc task_dict st tid =
      some ⟨update_error_message st.task_vars tid msg, st.calendars⟩ := by
    rcases herr with h1 | ⟨est, h1, h2⟩ | ⟨est, msg, h1, h2, h3⟩
    · exact ⟨"Task has unscheduled predecessors", by simp [processTask, hfind, h1]⟩
    · exact ⟨"No available resources", by simp [processTask, hfind, h1, h2]⟩
    · exact ⟨msg, by simp [processTask, hfind, h1, h2, h3]⟩
  obtain ⟨msg, hproc⟩ := key
  have hself : alookup tid (update_error_message st.task_vars tid msg) =
      some ⟨tid, none, none, none, none, some msg⟩ := by
    rw [update_error_message_lookup_self, hinit]
    rfl
  refine ⟨msg, ⟨update_error_message st.task_vars tid msg, st.calendars⟩,
    hproc, rfl, rfl, hself, ?_, ?_⟩
  · intro k hk
    exact update_error_message_lookup_other _ _ _ _ hk
  · intro succ hsucc
    apply (get_task_earliest_start_eq_none_iff _ _).mpr
    refine ⟨tid, hsucc, ?_⟩
    rw [hself]
    rfl

/-- Witness for C10: the no-available-resources path on a resource with
an empty calendar writes only the error message of task "A". -/
theorem error_paths_write_only_error_message_witness :
    alookup "A" [("A", (⟨"A", 3, [], 0, [1]⟩ : STask))] = some ⟨"A", 3, [], 0, [1]⟩ ∧
    alookup "A" (initState [("A", (⟨"A", 3, [], 0, [1]⟩ : STask))]
      [(1, [])]).task_vars = some (TaskVars.init "A") ∧
    (∃ msg st',
      processTask (fun _ _ => Except.error "never reached")
        [("A", (⟨"A", 3, [], 0, [1]⟩ : STask))]
        (initState [("A", (⟨"A", 3, [], 0, [1]⟩ : STask))] [(1, [])]) "A" =
        some st' ∧
      st'.calendars = (initState [("A", (⟨"A", 3, [], 0, [1]⟩ : STask))]
        [(1, [])]).calendars ∧
      st'.task_vars = update_error_message (initState
        [("A", (⟨"A", 3, [], 0, [1]⟩ : STask))] [(1, [])]).task_vars "A" msg ∧
      alookup "A" st'.task_vars = some ⟨"A", none, none, none, none, some msg⟩ ∧
      (∀ k, k ≠ "A" → alookup k st'.task_vars =
        alookup k (initState [("A", (⟨"A", 3, [], 0, [1]⟩ : STask))]
          [(1, [])]).task_vars) ∧
      ∀ succ : STask, "A" ∈ succ.predecessor_ids →
        get_task_earliest_start st'.task_vars succ = none) := by
  refine ⟨by decide, by decide, ?_⟩
  exact error_paths_write_only_error_message
    (fun _ _ => Except.error "never reached")
    [("A", (⟨"A", 3, [], 0, [1]⟩ : STask))]
    (initState [("A", (⟨"A", 3, [], 0, [1]⟩ : STask))] [(1, [])]) "A"
    ⟨"A", 3, [], 0, [1]⟩ (by decide) (by decide)
    (Or.inr (Or.inl ⟨0, by decide, by decide⟩))

/-! ## Exactly one outcome per returned record -/

/-- A record carries a complete allocation: assigned resource ids, task
start, task end and resource intervals are all populated. -/
def hasAllocation (v : TaskVars) : Prop :=
  v.assigned_resource_ids.isSome = true ∧ v.task_start.isSome = true ∧
  v.task_end.isSome = true ∧ v.resource_intervals.isSome = true

/-- A record carries an error message. -/
def hasError (v : TaskVars) : Prop :=
  v.error_message.isSome = true

/-- A settled record: either fully scheduled with no error message, or an
error record whose allocation fields are still the initial `none`s. -/
def settledRec (v : TaskVars) : Prop :=
  (v.assigned_resource_ids.isSome = true ∧ v.task_start.isSome = true ∧
    v.task_end.isSome = true ∧ v.resource_intervals.isSome = true ∧
    v.error_message = none) ∨
  (v.assigned_resource_ids = none ∧ v.task_start = none ∧ v.task_end = none ∧
    v.resource_intervals = none ∧ v.error_message.isSome = true)

/-- Invariant of the solve loop: a task still to be visited holds its
initial record; a task no longer to be visited holds a settled record. -/
def RunInv (remaining : List String) (tv : List (String × TaskVars)) : Prop :=
  ∀ p ∈ tv, (p.1 ∈ remaining ∧ p.2 = TaskVars.init p.1) ∨
    (p.1 ∉ remaining ∧ settledRec p.2)

theorem RunInv_update_error (tv : List (String × TaskVars)) (tid : String)
    (msg : String) (rest : List String) (hnotin : tid ∉ rest)
    (hinv : RunInv (tid :: rest) tv) :
    RunInv rest (update_error_message tv tid msg) := by
  intro p hp
  simp only [update_error_message, List.mem_map] at hp
  obtain ⟨q, hq, hqe⟩ := hp
  by_cases h1 : q.1 = tid
  · rw [if_pos h1] at hqe
    subst hqe
    rcases hinv q hq with ⟨-, hq2⟩ | ⟨hq1, -⟩
    · right
      refine ⟨h1 ▸ hnotin, ?_⟩
      right
      rw [hq2]
      exact ⟨rfl, rfl, rfl, rfl, rfl⟩
    · exact absurd (h1 ▸ List.mem_cons_self tid rest) hq1
  · rw [if_neg h1] at hqe
    subst hqe
    rcases hinv q hq with ⟨hq1, hq2⟩ | ⟨hq1, hq2⟩
    · left
      rcases List.mem_cons.mp hq1 with hh | hh
      · exact absurd hh h1
      · exact ⟨hh, hq2⟩
    · right
      exact ⟨fun hh => hq1 (List.mem_cons_of_mem _ hh), hq2⟩

theorem RunInv_setScheduled (tv : List (String × TaskVars)) (tid : String)
    (a : List (Nat × (Nat × Nat))) (mn mx : Nat)
    (rest : List String) (hnotin : tid ∉ rest)
    (hinv : RunInv (tid :: rest) tv) :
    RunInv rest (setScheduled tv tid a mn mx) := by
  intro p hp
  simp only [setScheduled, List.mem_map] at hp
  obtain ⟨q, hq, hqe⟩ := hp
  by_cases h1 : q.1 = tid
  · rw [if_pos h1] at hqe
    subst hqe
    right
    refine ⟨h1 ▸ hnotin, ?_⟩
    left
    exact ⟨rfl, rfl, rfl, rfl, rfl⟩
  · rw [if_neg h1] at hqe
    subst hqe
    rcases hinv q hq with ⟨hq1, hq2⟩ | ⟨hq1, hq2⟩
    · left
      rcases List.mem_cons.mp hq1 with hh | hh
      · exact absurd hh h1
      · exact ⟨hh, hq2⟩
    · right
      exact ⟨fun hh => hq1 (List.mem_cons_of_mem _ hh), hq2⟩

theorem solveLoop_RunInv (alloc : Allocator) (task_dict : List (String × STask)) :
    ∀ (order : List String) (st st' : SolverState), order.Nodup →
      solveLoop alloc task_dict order st = some st' →
      RunInv order st.task_vars → RunInv [] st'.task_vars := by
  intro order
  induction order with
  | nil =>
    intro st st' _ h hinv
    injection h with h'
    subst h'
    exact hinv
  | cons tid rest ih =>
    intro st st' hnd h hinv
    unfold solveLoop at h
    cases hp : processTask alloc task_dict st tid with
    | none => rw [hp] at h; cases h
    | some st₁ =>
      rw [hp] at h
      have hnotin : tid ∉ rest := (List.nodup_cons.mp hnd).1
      have hnd' : rest.Nodup := (List.nodup_cons.mp hnd).2
      rcases processTask_shape alloc task_dict st tid st₁ hp with
        ⟨⟨msg, htv⟩, -⟩ | ⟨a, mn, mx, htv, -⟩
      · exact ih st₁ st' hnd' h
          (htv ▸ RunInv_update_error st.task_vars tid msg rest hnotin hinv)
      · exact ih st₁ st' hnd' h
          (htv ▸ RunInv_setScheduled st.task_vars tid a mn mx rest hnotin hinv)

/-- C8: in every record returned by a successful `solve` run over a
duplicate-free task order covering every task id, exactly one of a
complete allocation or an error message is set — never both, never
neither. -/
theorem solve_exactly_one_outcome
    (alloc : Allocator) (task_dict : List (String × STask))
    (resources : List (Nat × Calendar)) (task_order : List String)
    (res : List TaskVars)
    (hnd : task_order.Nodup)
    (hcov : ∀ p ∈ task_dict, p.1 ∈ task_order)
    (h : solve alloc task_dict resources task_order = some res) :
    ∀ v ∈ res, (hasAllocation v ∨ hasError v) ∧ ¬ (hasAllocation v ∧ hasError v) := by
  unfold solve at h
  cases hs : solveLoop alloc task_dict task_order (initState task_dict resources) with
  | none => rw [hs] at h; cases h
  | some st' =>
    rw [hs] at h
    injection h with h'
    subst h'
    have hinv0 : RunInv task_order (initState task_dict resources).task_vars := by
      intro p hp
      simp only [initState, List.mem_map] at hp
      obtain ⟨q, hq, hqe⟩ := hp
      subst hqe
      exact Or.inl ⟨hcov q hq, rfl⟩
    have hfin := solveLoop_RunInv alloc task_dict task_order
      (initState task_dict resources) st' hnd hs hinv0
    intro v hv
    obtain ⟨p, hp, hpe⟩ := List.mem_map.mp hv
    subst hpe
    rcases hfin p hp with ⟨hmem, -⟩ | ⟨-, hset⟩
    · cases hmem
    · rcases hset with ⟨h1, h2, h3, h4, h5⟩ | ⟨h1, h2, h3, h4, h5⟩
      · refine ⟨Or.inl ⟨h1, h2, h3, h4⟩, ?_⟩
        rintro ⟨-, herrv⟩
        rw [hasError, h5] at herrv
        cases herrv
      · refine ⟨Or.inr h5, ?_⟩
        rintro ⟨⟨hv1, -⟩, -⟩
        rw [h1] at hv1
        cases hv1

/-- Witness for C8: a two-task run in which "A" is scheduled and "B"
fails allocation; both records are settled with exactly one outcome. -/
theorem solve_exactly_one_outcome_witness :
    (["A", "B"] : List String).Nodup ∧
    (∀ p ∈ [("A", (⟨"A", 3, [], 0, [1]⟩ : STask)), ("B", ⟨"B", 2, [], 0, [1]⟩)],
      p.1 ∈ (["A", "B"] : List String)) ∧
    (∀ v ∈ [(⟨"A", some [1], some 0, some 3, some [(0, 3)], none⟩ : TaskVars),
            ⟨"B", none, none, none, none, some "insufficient availability"⟩],
      (hasAllocation v ∨ hasError v) ∧ ¬ (hasAllocation v ∧ hasError v)) := by
  refine ⟨by decide, by decide, ?_⟩
  exact solve_exactly_one_outcome
    (fun _ task => if task.id = "A" then Except.ok [(1, (0, 3))]
      else Except.error "insufficient availability")
    [("A", (⟨"A", 3, [], 0, [1]⟩ : STask)), ("B", ⟨"B", 2, [], 0, [1]⟩)]
    [(1, [(0, 4), (5, 10)])] ["A", "B"]
    [⟨"A", some [1], some 0, some 3, some [(0, 3)], none⟩,
     ⟨"B", none, none, none, none, some "insufficient availability"⟩]
    (by decide) (by decide) (by decide)

/-! ## Calendar lemmas: coverage and well-formedness under commits -/

/-- The time point `t` lies in one of the plain intervals of `l`. -/
def inIntervals (l : List (Nat × Nat)) (t : Nat) : Bool :=
  l.any (fun q => q.1 ≤ t && t < q.2)

theorem covers_append (l₁ l₂ : Calendar) (t : Nat) :
    covers (l₁ ++ l₂) t = (covers l₁ t || covers l₂ t) := by
  simp [covers, List.any_append]

theorem covers_subtractW (s e t : Nat) (w : Window) :
    covers (subtractW s e w) t = true ↔
      (inW t w = true ∧ ¬ (s ≤ t ∧ t < e)) := by
  have h0 : ∀ l₁ l₂ : Calendar, covers (l₁ ++ l₂) t = true ↔
      (covers l₁ t = true ∨ covers l₂ t = true) := by
    intro l₁ l₂
    rw [covers_append, Bool.or_eq_true]
  have hone : ∀ a b : Nat, covers [(a, b)] t = true ↔ (a ≤ t ∧ t < b) := by
    intro a b
    simp [covers, inW]
  have hnil : covers [] t = false := rfl
  have hw : inW t w = true ↔ (w.1 ≤ t ∧ t < w.2) := by
    simp [inW]
  rw [subtractW, h0, hw]
  simp only [Nat.min_def, Nat.max_def]
  split_ifs <;>
    simp only [hone, hnil, Bool.false_eq_true, or_false, false_or, or_self,
      false_iff, not_and, not_lt] <;>
    omega

theorem covers_subAll (s e : Nat) (cal : Calendar) (t : Nat) :
    covers (subAll s e cal) t = true ↔
      (covers cal t = true ∧ ¬ (s ≤ t ∧ t < e)) := by
  induction cal with
  | nil => simp [subAll, covers]
  | cons w rest ih =>
    rw [subAll, covers_append]
    simp only [Bool.or_eq_true, ih, covers_subtractW]
    constructor
    · rintro (⟨hw, hn⟩ | ⟨hr, hn⟩)
      · exact ⟨by simp [covers, inW] at hw ⊢; omega, hn⟩
      · refine ⟨?_, hn⟩
        simp only [covers, List.any_cons, Bool.or_eq_true]
        exact Or.inr hr
    · rintro ⟨hc, hn⟩
      simp only [covers, List.any_cons, Bool.or_eq_true] at hc
      rcases hc with hw | hr
      · exact Or.inl ⟨hw, hn⟩
      · exact Or.inr ⟨hr, hn⟩

/-- Well-formedness with a lower bound: every window is proper, windows
are strictly separated, and the first window starts at or after `lo`. -/
def lbWF (lo : Nat) : Calendar → Prop
  | [] => True
  | w :: rest => lo ≤ w.1 ∧ w.1 < w.2 ∧ lbWF (w.2 + 1) rest

theorem lbWF_mono : ∀ (l : Calendar) (lo lo' : Nat), lo ≤ lo' → lbWF lo' l → lbWF lo l := by
  intro l lo lo' hle h
  cases l with
  | nil => trivial
  | cons w rest =>
    obtain ⟨h1, h2, h3⟩ := h
    exact ⟨le_trans hle h1, h2, h3⟩

theorem lbWF_subAll (s e : Nat) (hse : s < e) :
    ∀ (cal : Calendar) (lo : Nat), lbWF lo cal → lbWF lo (subAll s e cal) := by
  intro cal
  induction cal with
  | nil => intro lo h; exact h
  | cons w rest ih =>
    rintro lo ⟨hlo, hw, hrest⟩
    have ihr := ih (w.2 + 1) hrest
    rw [subAll, subtractW]
    by_cases h1 : w.1 < min s w.2 <;> by_cases h2 : max e w.1 < w.2
    · rw [if_pos h1, if_pos h2]
      refine ⟨hlo, h1, ?_⟩
      refine ⟨by omega, h2, ?_⟩
      exact lbWF_mono _ _ _ (by omega) ihr
    · rw [if_pos h1, if_neg h2]
      refine ⟨hlo, h1, ?_⟩
      exact lbWF_mono _ _ _ (by omega) ihr
    · rw [if_neg h1, if_pos h2]
      refine ⟨by omega, h2, ?_⟩
      exact lbWF_mono _ _ _ (by omega) ihr
    · rw [if_neg h1, if_neg h2]
      exact lbWF_mono _ _ _ (by omega) ihr

theorem lbWF_calendarWF : ∀ (l : Calendar) (lo : Nat), lbWF lo l → calendarWF l = true := by
  intro l
  induction l with
  | nil => intro lo _; rfl
  | cons w rest ih =>
    rintro lo ⟨-, hw, hrest⟩
    cases rest with
    | nil => simp [calendarWF, hw]
    | cons w' rest' =>
      have hge : w.2 + 1 ≤ w'.1 := hrest.1
      simp only [calendarWF, Bool.and_eq_true, decide_eq_true_eq]
      exact ⟨⟨hw, by omega⟩, ih (w.2 + 1) hrest⟩

theorem calendarWF_lbWF : ∀ (l : Calendar), calendarWF l = true →
    ∀ lo, (∀ w, l.head? = some w → lo ≤ w.1) → lbWF lo l := by
  intro l
  induction l with
  | nil => intro _ lo _; trivial
  | cons w rest ih =>
    intro hWF lo hlo
    have hlo' : lo ≤ w.1 := hlo w rfl
    cases rest with
    | nil =>
      simp only [calendarWF, decide_eq_true_eq] at hWF
      exact ⟨hlo', hWF, trivial⟩
    | cons w' rest' =>
      simp only [calendarWF, Bool.and_eq_true, decide_eq_true_eq] at hWF
      obtain ⟨⟨hw, hgap⟩, hWF'⟩ := hWF
      refine ⟨hlo', hw, ?_⟩
      apply ih hWF' (w.2 + 1)
      intro u hu
      injection hu with hu'
      subst hu'
      omega

theorem containedIn_covers (s e : Nat) (cal : Calendar)
    (h : containedIn s e cal = true) :
    ∀ t, s ≤ t → t < e → covers cal t = true := by
  intro t hst hte
  simp only [containedIn, List.any_eq_true, Bool.and_eq_true, decide_eq_true_eq] at h
  obtain ⟨w, hw, h1, h2⟩ := h
  simp only [covers, List.any_eq_true]
  refine ⟨w, hw, ?_⟩
  simp only [inW, Bool.and_eq_true, decide_eq_true_eq]
  omega

theorem commitOne_some (cal : Calendar) (s e : Nat) (cal' : Calendar)
    (h : commitOne cal s e = some cal') :
    s < e ∧ containedIn s e cal = true ∧ cal' = subAll s e cal := by
  unfold commitOne at h
  split at h
  · rename_i hc
    rw [Bool.and_eq_true, decide_eq_true_eq] at hc
    injection h with h'
    exact ⟨hc.1, hc.2, h'.symm⟩
  · cases h

theorem commitOne_covers (cal : Calendar) (s e : Nat) (cal' : Calendar)
    (h : commitOne cal s e = some cal') (t : Nat) :
    covers cal' t = true ↔ (covers cal t = true ∧ ¬ (s ≤ t ∧ t < e)) := by
  obtain ⟨-, -, hsub⟩ := commitOne_some cal s e cal' h
  rw [hsub]
  exact covers_subAll s e cal t

theorem commitOne_WF (cal : Calendar) (s e : Nat) (cal' : Calendar)
    (h : commitOne cal s e = some cal') (hwf : calendarWF cal = true) :
    calendarWF cal' = true := by
  obtain ⟨hse, -, hsub⟩ := commitOne_some cal s e cal' h
  rw [hsub]
  apply lbWF_calendarWF _ 0
  apply lbWF_subAll s e hse
  apply calendarWF_lbWF cal hwf 0
  intro u _
  exact Nat.zero_le u.1

theorem commitOne_covers_mono (cal : Calendar) (s e : Nat) (cal' : Calendar)
    (h : commitOne cal s e = some cal') (t : Nat)
    (hc : covers cal' t = true) : covers cal t = true :=
  ((commitOne_covers cal s e cal' h t).mp hc).1

theorem commitSeq_mem_covered :
    ∀ (l : List (Nat × Nat)) (cal cal' : Calendar),
      commitSeq cal l = some cal' →
      ∀ q ∈ l, ∀ t, q.1 ≤ t → t < q.2 → covers cal t = true := by
  intro l
  induction l with
  | nil =>
    intro cal cal' _ q hq
    cases hq
  | cons p rest ih =>
    intro cal cal' h q hq t h1 h2
    rw [commitSeq] at h
    cases hc : commitOne cal p.1 p.2 with
    | none =>
      rcases p with ⟨s, e⟩
      rw [hc] at h
      cases h
    | some cal₁ =>
      rcases p with ⟨s, e⟩
      rw [hc] at h
      rcases List.mem_cons.mp hq with h3 | h3
      · subst h3
        obtain ⟨-, hcont, -⟩ := commitOne_some cal s e cal₁ hc
        exact containedIn_covers s e cal hcont t h1 h2
      · exact commitOne_covers_mono cal s e cal₁ hc t (ih cal₁ cal' h q h3 t h1 h2)

theorem commitSeq_covers :
    ∀ (l : List (Nat × Nat)) (cal cal' : Calendar),
      commitSeq cal l = some cal' →
      ∀ t, covers cal' t = true ↔ (covers cal t = true ∧ inIntervals l t = false) := by
  intro l
  induction l with
  | nil =>
    intro cal cal' h t
    injection h with h'
    subst h'
    simp [inIntervals]
  | cons p rest ih =>
    intro cal cal' h t
    rw [commitSeq] at h
    rcases p with ⟨s, e⟩
    cases hc : commitOne cal s e with
    | none => rw [hc] at h; cases h
    | some cal₁ =>
      rw [hc] at h
      rw [ih cal₁ cal' h t, commitOne_covers cal s e cal₁ hc t]
      simp only [inIntervals, List.any_cons, Bool.or_eq_false_iff,
        Bool.and_eq_false_iff]
      constructor
      · rintro ⟨⟨hcov, hn⟩, hrest⟩
        refine ⟨hcov, ?_, by simpa [inIntervals] using hrest⟩
        by_cases hst : s ≤ t
        · by_cases hte : t < e
          · exact absurd ⟨hst, hte⟩ hn
          · right; simpa using hte
        · left; simpa using hst
      · rintro ⟨hcov, hp, hrest⟩
        refine ⟨⟨hcov, ?_⟩, by simpa [inIntervals] using hrest⟩
        rintro ⟨hst, hte⟩
        rcases hp with hp | hp
        · simp at hp; omega
        · simp at hp; omega

theorem commitSeq_WF :
    ∀ (l : List (Nat × Nat)) (cal cal' : Calendar),
      commitSeq cal l = some cal' → calendarWF cal = true →
      calendarWF cal' = true := by
  intro l
  induction l with
  | nil =>
    intro cal cal' h hwf
    injection h with h'
    subst h'
    exact hwf
  | cons p rest ih =>
    intro cal cal' h hwf
    rw [commitSeq] at h
    rcases p with ⟨s, e⟩
    cases hc : commitOne cal s e with
    | none => rw [hc] at h; cases h
    | some cal₁ =>
      rw [hc] at h
      exact ih cal₁ cal' h (commitOne_WF cal s e cal₁ hc hwf)

theorem commitSeq_disjoint :
    ∀ (l : List (Nat × Nat)) (cal cal' : Calendar),
      commitSeq cal l = some cal' →
      List.Pairwise (fun q q' =>
        ∀ t : Nat, ¬ (q.1 ≤ t ∧ t < q.2 ∧ q'.1 ≤ t ∧ t < q'.2)) l := by
  intro l
  induction l with
  | nil => intro _ _ _; exact List.Pairwise.nil
  | cons p rest ih =>
    intro cal cal' h
    rw [commitSeq] at h
    rcases p with ⟨s, e⟩
    cases hc : commitOne cal s e with
    | none => rw [hc] at h; cases h
    | some cal₁ =>
      rw [hc] at h
      refine List.Pairwise.cons ?_ (ih cal₁ cal' h)
      intro q hq t
      rintro ⟨h1, h2, h3, h4⟩
      have hcov₁ : covers cal₁ t = true :=
        commitSeq_mem_covered rest cal₁ cal' h q hq t h3 h4
      have := (commitOne_covers cal s e cal₁ hc t).mp hcov₁
      exact this.2 ⟨h1, h2⟩

theorem commitSeq_append (l₁ l₂ : List (Nat × Nat)) :
    ∀ cal : Calendar, commitSeq cal (l₁ ++ l₂) =
      (commitSeq cal l₁).bind (fun c => commitSeq c l₂) := by
  induction l₁ with
  | nil => intro cal; rfl
  | cons p rest ih =>
    intro cal
    rcases p with ⟨s, e⟩
    rw [List.cons_append, commitSeq, commitSeq]
    cases hc : commitOne cal s e with
    | none => rfl
    | some cal₁ => exact ih cal₁

theorem alookup_mem {α β : Type} [DecidableEq α] (k : α) :
    ∀ (l : List (α × β)) (v : β), alookup k l = some v → (k, v) ∈ l := by
  intro l
  induction l with
  | nil => intro v h; cases h
  | cons p rest ih =>
    rcases p with ⟨p1, p2⟩
    intro v h
    rw [alookup] at h
    by_cases hp : p1 = k
    · rw [if_pos hp] at h
      injection h with h'
      subst h'
      subst hp
      exact List.mem_cons_self _ _
    · rw [if_neg hp] at h
      exact List.mem_cons_of_mem _ (ih v h)

theorem commitAt_lookup (rid s e : Nat) :
    ∀ (wm wm' : List (Nat × Calendar)), commitAt rid s e wm = some wm' →
      (∀ r, r ≠ rid → alookup r wm' = alookup r wm) ∧
      (∃ c c', alookup rid wm = some c ∧ alookup rid wm' = some c' ∧
        commitOne c s e = some c') := by
  intro wm
  induction wm with
  | nil => intro wm' h; cases h
  | cons p rest ih =>
    rcases p with ⟨r0, c0⟩
    intro wm' h
    rw [commitAt] at h
    by_cases hp : r0 = rid
    · rw [if_pos hp] at h
      cases hc : commitOne c0 s e with
      | none => rw [hc] at h; cases h
      | some c' =>
        rw [hc] at h
        injection h with h'
        subst h'
        constructor
        · intro r hr
          have hne : ¬ r0 = r := fun hh => hr ((hh ▸ hp : r = rid))
          simp [alookup, hne]
        · exact ⟨c0, c', by simp [alookup, hp], by simp [alookup, hp], hc⟩
    · rw [if_neg hp] at h
      cases hrec : commitAt rid s e rest with
      | none => rw [hrec] at h; cases h
      | some wm₁ =>
        rw [hrec] at h
        injection h with h'
        subst h'
        obtain ⟨hother, c, c', hc1, hc2, hc3⟩ := ih wm₁ hrec
        constructor
        · intro r hr
          by_cases hq : r0 = r
          · simp [alookup, hq]
          · simp [alookup, hq, hother r hr]
        · exact ⟨c, c', by simp [alookup, hp, hc1], by simp [alookup, hp, hc2], hc3⟩

theorem update_resource_windows_commitSeq :
    ∀ (a : List (Nat × (Nat × Nat))) (wm wm' : List (Nat × Calendar)),
      update_resource_windows wm a = some wm' →
      ∀ r c', alookup r wm' = some c' →
        ∃ c l, alookup r wm = some c ∧ commitSeq c l = some c' := by
  intro a
  induction a with
  | nil =>
    intro wm wm' h r c' hl
    injection h with h'
    subst h'
    exact ⟨c', [], hl, rfl⟩
  | cons q rest ih =>
    intro wm wm' h r c' hl
    rcases q with ⟨rid, s, e⟩
    rw [update_resource_windows] at h
    cases hc : commitAt rid s e wm with
    | none => rw [hc] at h; cases h
    | some wm₁ =>
      rw [hc] at h
      obtain ⟨c₁, l, hl₁, hseq⟩ := ih wm₁ wm' h r c' hl
      obtain ⟨hother, c0, c0', h1, h2, h3⟩ := commitAt_lookup rid s e wm wm₁ hc
      by_cases hr : r = rid
      · subst hr
        rw [hl₁] at h2
        injection h2 with h2'
        subst h2'
        refine ⟨c0, (s, e) :: l, h1, ?_⟩
        rw [commitSeq, h3]
        exact hseq
      · rw [hother r hr] at hl₁
        exact ⟨c₁, l, hl₁, hseq⟩

theorem solveLoop_calendars_commitSeq (alloc : Allocator)
    (task_dict : List (String × STask)) :
    ∀ (order : List String) (st st' : SolverState),
      solveLoop alloc task_dict order st = some st' →
      ∀ r c', alookup r st'.calendars = some c' →
        ∃ c l, alookup r st.calendars = some c ∧ commitSeq c l = some c' := by
  intro order
  induction order with
  | nil =>
    intro st st' h r c' hl
    injection h with h'
    subst h'
    exact ⟨c', [], hl, rfl⟩
  | cons tid rest ih =>
    intro st st' h r c' hl
    unfold solveLoop at h
    cases hp : processTask alloc task_dict st tid with
    | none => rw [hp] at h; cases h
    | some st₁ =>
      rw [hp] at h
      obtain ⟨c₁, l₂, hl₁, hseq₂⟩ := ih st₁ st' h r c' hl
      rcases processTask_shape alloc task_dict st tid st₁ hp with
        ⟨-, hcals⟩ | ⟨a, mn, mx, -, hcommit⟩
      · rw [hcals] at hl₁
        exact ⟨c₁, l₂, hl₁, hseq₂⟩
      · obtain ⟨c, l₁, hcl, hseq₁⟩ := update_resource_windows_commitSeq a
          st.calendars st₁.calendars hcommit r c₁ hl₁
        refine ⟨c, l₁ ++ l₂, hcl, ?_⟩
        rw [commitSeq_append, hseq₁]
        exact hseq₂

/-- C1: for every resource, after any solve run (hence after every
commit of a run, since every prefix of a run is itself a run), the
resource's calendar is well-formed — windows sorted by start time,
proper, mutually non-overlapping and never adjacent (`calendarWF`) — and
there is a list `l` of committed sub-intervals such that the calendar is
obtained from the original availability by exactly those commits, its
coverage (union) is pointwise the original availability minus the
committed sub-intervals, and the committed sub-intervals are pairwise
disjoint (no two tasks ever occupy overlapping time on the same
resource). -/
theorem solve_calendar_invariant
    (alloc : Allocator) (task_dict : List (String × STask)) (order : List String)
    (st₀ st' : SolverState)
    (hwf0 : ∀ p ∈ st₀.calendars, calendarWF p.2 = true)
    (hrun : solveLoop alloc task_dict order st₀ = some st') :
    ∀ r c', alookup r st'.calendars = some c' →
      ∃ c l, alookup r st₀.calendars = some c ∧
        commitSeq c l = some c' ∧
        calendarWF c' = true ∧
        (∀ t, covers c' t = true ↔ (covers c t = true ∧ inIntervals l t = false)) ∧
        List.Pairwise (fun q q' =>
          ∀ t : Nat, ¬ (q.1 ≤ t ∧ t < q.2 ∧ q'.1 ≤ t ∧ t < q'.2)) l := by
  intro r c' hl
  obtain ⟨c, l, hc, hseq⟩ := solveLoop_calendars_commitSeq alloc task_dict order
    st₀ st' hrun r c' hl
  have hwfc : calendarWF c = true := hwf0 (r, c) (alookup_mem r st₀.calendars c hc)
  exact ⟨c, l, hc, hseq, commitSeq_WF l c c' hseq hwfc,
    commitSeq_covers l c c' hseq, commitSeq_disjoint l c c' hseq⟩

/-- Witness for C1: the one-task run of the §8 scenario — duration 3 on
resource 1 with calendar `[[0,4),[5,10)]`, allocated `[0,3)` — leaves
the calendar `[[3,4),[5,10)]`, reached by committing `[0,3)`, sorted,
non-overlapping, and covering exactly the original minus the commit. -/
theorem solve_calendar_invariant_witness :
    (∀ p ∈ [(1, ([(0, 4), (5, 10)] : Calendar))], calendarWF p.2 = true) ∧
    (∃ c l, alookup 1 [(1, ([(0, 4), (5, 10)] : Calendar))] = some c ∧
      commitSeq c l = some [(3, 4), (5, 10)] ∧
      calendarWF [(3, 4), (5, 10)] = true ∧
      (∀ t, covers [(3, 4), (5, 10)] t = true ↔
        (covers c t = true ∧ inIntervals l t = false)) ∧
      List.Pairwise (fun q q' =>
        ∀ t : Nat, ¬ (q.1 ≤ t ∧ t < q.2 ∧ q'.1 ≤ t ∧ t < q'.2)) l) := by
  refine ⟨by decide, ?_⟩
  exact solve_calendar_invariant (fun _ _ => Except.ok [(1, (0, 3))])
    [("A", (⟨"A", 3, [], 0, [1]⟩ : STask))] ["A"]
    (initState [("A", (⟨"A", 3, [], 0, [1]⟩ : STask))] [(1, [(0, 4), (5, 10)])])
    ⟨[("A", ⟨"A", some [1], some 0, some 3, some [(0, 3)], none⟩)],
      [(1, [(3, 4), (5, 10)])]⟩
    (by decide) (by decide) 1 [(3, 4), (5, 10)] (by decide)
